import Mathlib

/-!
Shallow embedding of the basic-forth-interpreter crate (src/lib.rs).

The Rust source is embedded as follows:
  * `VecDeque` of items / values becomes a Lean `List`, kept in front-to-back
    order, so `push_back` is `· ++ [v]`, `back` is `List.getLast?` and
    `pop_back` is `List.getLast?` plus `List.dropLast`.
  * The `HashMap<String, VecDeque<Item>>` vocabulary becomes an association
    list with prepend-insert; `List.lookup` finds the most recent binding,
    matching `HashMap::insert` overwrite semantics.
  * `i32` values become `Int`; `str::parse::<i32>` is modelled including the
    sign handling, the all-digits requirement and the 32-bit range check;
    arithmetic results are reduced into the `i32` range with `wrap32`
    (release-build two-complement wrapping; see `eval_oper` on where debug
    builds panic instead).
  * Rust's per-character `to_uppercase`/`is_control`/`split_whitespace`
    pipeline is modelled on `List Char` (ASCII-faithful).
  * Functions that mutate `&mut self` return the mutated component alongside
    the `Result`, since mutations persist even when an error is returned.
-/

namespace BasicForth

abbrev Value := Int

inductive ArithWord | add | sub | mul | div
deriving DecidableEq, Repr

inductive StackWord | dup | drop | swap | over
deriving DecidableEq, Repr

inductive Symbol | colon | semiColon
deriving DecidableEq, Repr

inductive Exec where
  | arith (o : ArithWord)
  | stackw (c : StackWord)
  | value (v : Value)
deriving DecidableEq, Repr

inductive Item where
  | exec (e : Exec)
  | symbol (s : Symbol)
deriving DecidableEq, Repr

inductive Error where
  | divisionByZero
  | stackUnderflow
  | unknownWord
  | invalidWord
deriving DecidableEq, Repr

inductive ParseState where
  | normal      -- Parse into existing words
  | customInit  -- This item is the name of re-defined word
  | custom      -- This item is the body of re-defined word
deriving DecidableEq, Repr

abbrev WordMap := List (String × List Item)

/-- `HashMap::insert`: bind `k` to `v`, overwriting any previous binding
(prepend; `List.lookup` sees the newest binding first). -/
def mapInsert (m : WordMap) (k : String) (v : List Item) : WordMap :=
  (k, v) :: m

/-- The seeded `WORD_MAP` static of the source. -/
def initialWordMap : WordMap :=
  [ ("DUP",  [Item.exec (Exec.stackw StackWord.dup)]),
    ("DROP", [Item.exec (Exec.stackw StackWord.drop)]),
    ("SWAP", [Item.exec (Exec.stackw StackWord.swap)]),
    ("OVER", [Item.exec (Exec.stackw StackWord.over)]),
    ("+",    [Item.exec (Exec.arith ArithWord.add)]),
    ("-",    [Item.exec (Exec.arith ArithWord.sub)]),
    ("*",    [Item.exec (Exec.arith ArithWord.mul)]),
    ("/",    [Item.exec (Exec.arith ArithWord.div)]),
    (":",    [Item.symbol Symbol.colon]),
    (";",    [Item.symbol Symbol.semiColon]) ]

structure Forth where
  word_map : WordMap
  stack : List Value
deriving DecidableEq, Repr

/-- `Forth::new`. -/
def Forth.new : Forth := { word_map := initialWordMap, stack := [] }

/-- Rust `char::is_control` (Unicode category Cc). -/
def isControlChar (c : Char) : Bool :=
  c.val < 0x20 || (0x7f ≤ c.val && c.val ≤ 0x9f)

/-- `to_space_separated`: replace every control character with a space. -/
def to_space_separated (cs : List Char) : List Char :=
  cs.map (fun c => if isControlChar c then ' ' else c)

/-- `str::split_whitespace`: split on whitespace, dropping empty tokens.
The accumulator holds the current token reversed. -/
def splitWsAux : List Char → List Char → List String
  | [], acc => match acc with
    | [] => []
    | _ => [String.mk acc.reverse]
  | c :: cs, acc =>
    if c.isWhitespace then
      match acc with
      | [] => splitWsAux cs []
      | _ => String.mk acc.reverse :: splitWsAux cs []
    else splitWsAux cs (c :: acc)

def splitWs (cs : List Char) : List String := splitWsAux cs []

/-- Value of a digit string, `none` if some character is not an ASCII digit. -/
def digitsVal (cs : List Char) : Option Nat :=
  cs.foldl
    (fun acc c =>
      match acc with
      | none => none
      | some n => if c.isDigit then some (n * 10 + (c.toNat - '0'.toNat)) else none)
    (some 0)

/-- `str::parse::<i32>`: optional sign, at least one digit, all digits,
result within the `i32` range. -/
def parseI32 (s : String) : Option Int :=
  let core : Bool → List Char → Option Int := fun neg ds =>
    match ds with
    | [] => none
    | _ =>
      match digitsVal ds with
      | none => none
      | some n =>
        let v : Int := if neg then -(n : Int) else (n : Int)
        if v < -(2 ^ 31) ∨ (2 ^ 31 : Int) ≤ v then none else some v
  match s.data with
  | '+' :: rest => core false rest
  | '-' :: rest => core true rest
  | cs => core false cs

/-- Rust per-char `to_uppercase` of a string (ASCII-faithful). -/
def upper (s : String) : String := String.mk (s.data.map Char.toUpper)

/-- `Forth::str_to_item`: numeric parse first, then vocabulary lookup of the
case-folded token (a copy of the stored sequence), else `UnknownWord`. -/
def str_to_item (wm : WordMap) (s : String) : Except Error (List Item) :=
  match parseI32 s with
  | some v => Except.ok [Item.exec (Exec.value v)]
  | none =>
    match wm.lookup (upper s) with
    | some w => Except.ok w
    | none => Except.error Error.unknownWord

/-- `word_map.get_mut(name)` followed by `push_back` of each item of `v`;
silently does nothing when the name is absent (the source's `None => ()`). -/
def appendToWord (wm : WordMap) (k : String) (v : List Item) : WordMap :=
  match wm.lookup k with
  | some w => mapInsert wm k (w ++ v)
  | none => wm

/-- The token loop of `Forth::input_parse`. State components mirror the
source's locals: parser state, `curr_custom_word`, the output `items`, and
the (mutated-in-place) vocabulary, which is returned even on error. -/
def parseTokens : List String → ParseState → String → List Item → WordMap →
    Except Error (List Item) × WordMap
  | [], st, _, items, wm =>
    match st with
    | ParseState.normal => (Except.ok items, wm)
    | _ => (Except.error Error.invalidWord, wm)
  | tok :: rest, ParseState.normal, ccw, items, wm =>
    match str_to_item wm tok with
    | Except.error e => (Except.error e, wm)
    | Except.ok v =>
      match v.getLast? with
      | none => (Except.error Error.invalidWord, wm)
      | some it =>
        if it = Item.symbol Symbol.colon then
          parseTokens rest ParseState.customInit ccw items wm
        else
          parseTokens rest ParseState.normal ccw (items ++ v) wm
  | tok :: rest, ParseState.customInit, _, items, wm =>
    -- Cannot re-define numbers: a successful resolution whose last item is a
    -- literal (or which is empty) is rejected; a failed resolution is ignored.
    let bad : Option Error :=
      match str_to_item wm tok with
      | Except.ok v =>
        match v.getLast? with
        | none => some Error.invalidWord
        | some (Item.exec (Exec.value _)) => some Error.invalidWord
        | some _ => none
      | Except.error _ => none
    match bad with
    | some e => (Except.error e, wm)
    | none => parseTokens rest ParseState.custom tok items (mapInsert wm tok [])
  | tok :: rest, ParseState.custom, ccw, items, wm =>
    match str_to_item wm tok with
    | Except.error e => (Except.error e, wm)
    | Except.ok v =>
      match v.getLast? with
      | none => (Except.error Error.invalidWord, wm)
      | some it =>
        if it = Item.symbol Symbol.semiColon then
          parseTokens rest ParseState.normal ccw items wm
        else
          parseTokens rest ParseState.custom ccw items (appendToWord wm ccw v)

/-- `Forth::input_parse`: uppercase, replace control characters by spaces,
split on whitespace, then run the state machine from `Normal`. -/
def input_parse (wm : WordMap) (input : String) :
    Except Error (List Item) × WordMap :=
  let ups := (upper input).data
  let seps := to_space_separated ups
  parseTokens (splitWs seps) ParseState.normal "" [] wm

def i32Min : Int := -(2 ^ 31)

def i32Max : Int := 2 ^ 31 - 1

/-- Reduce an unbounded integer into the `i32` range the way two-complement
overflow does. -/
def wrap32 (x : Int) : Int := (x + 2 ^ 31) % 2 ^ 32 - 2 ^ 31

/-- The exact mathematical result `b op a` of an arithmetic word (with
truncating division), before any 32-bit reduction. -/
def arithExact (a b : Value) (o : ArithWord) : Int :=
  match o with
  | ArithWord.add => b + a
  | ArithWord.sub => b - a
  | ArithWord.mul => b * a
  | ArithWord.div => Int.tdiv b a

/-- `eval_oper`: `a` was on top of the stack, `b` just below it. The Rust
operations are on `i32`; this embeds the release build, where `+`, `-`, `*`
wrap on overflow (two-complement). On the same out-of-range inputs a debug
build panics instead of wrapping, and `i32::MIN / -1` panics in every
build (here it also wraps), so theorems assert concrete arithmetic results
only under no-overflow hypotheses, where every build returns the exact
`arithExact` value and this model coincides with it. -/
def eval_oper (a b : Value) (o : ArithWord) : Except Error Value :=
  match o with
  | ArithWord.add => Except.ok (wrap32 (b + a))
  | ArithWord.sub => Except.ok (wrap32 (b - a))
  | ArithWord.mul => Except.ok (wrap32 (b * a))
  | ArithWord.div =>
    if a = 0 then Except.error Error.divisionByZero
    else Except.ok (wrap32 (Int.tdiv b a))

/-- `eval_command`: the stack-word cases; the possibly-mutated stack is
returned alongside the result. -/
def eval_command (stack : List Value) (c : StackWord) :
    Except Error Unit × List Value :=
  match c with
  | StackWord.dup =>
    match stack.getLast? with
    | some a => (Except.ok (), stack ++ [a])
    | none => (Except.error Error.stackUnderflow, stack)
  | StackWord.drop =>
    match stack.getLast? with
    | some _ => (Except.ok (), stack.dropLast)
    | none => (Except.error Error.stackUnderflow, stack)
  | StackWord.swap =>
    match stack.getLast? with
    | none => (Except.error Error.stackUnderflow, stack)
    | some a =>
      let s1 := stack.dropLast
      match s1.getLast? with
      | none => (Except.error Error.stackUnderflow, s1)
      | some b => (Except.ok (), s1.dropLast ++ [a, b])
  | StackWord.over =>
    if stack.length < 2 then (Except.error Error.stackUnderflow, stack)
    else
      match stack.get? (stack.length - 2) with
      | some a => (Except.ok (), stack ++ [a])
      | none => (Except.error Error.stackUnderflow, stack)

/-- The item loop of `Forth::eval`: execute each item against the stack,
stopping at the first error (the stack mutated so far is returned). Symbol
items fall into the source's `_ => ()` arm and are skipped. -/
def runItems : List Item → List Value → Except Error Unit × List Value
  | [], s => (Except.ok (), s)
  | Item.exec (Exec.arith o) :: rest, s =>
    match s.getLast? with
    | none => (Except.error Error.stackUnderflow, s)
    | some a =>
      let s1 := s.dropLast
      match s1.getLast? with
      | none => (Except.error Error.stackUnderflow, s1)
      | some b =>
        match eval_oper a b o with
        | Except.ok v => runItems rest (s1.dropLast ++ [v])
        | Except.error e => (Except.error e, s1.dropLast)
  | Item.exec (Exec.stackw c) :: rest, s =>
    match eval_command s c with
    | (Except.ok _, s1) => runItems rest s1
    | (Except.error e, s1) => (Except.error e, s1)
  | Item.exec (Exec.value v) :: rest, s => runItems rest (s ++ [v])
  | Item.symbol _ :: rest, s => runItems rest s

/-- `Forth::eval`: parse the line (vocabulary mutations persist either way),
then execute the produced items against the stack. -/
def Forth.eval (f : Forth) (input : String) : Except Error Unit × Forth :=
  match input_parse f.word_map input with
  | (Except.error e, wm) => (Except.error e, { f with word_map := wm })
  | (Except.ok v, wm) =>
    let (r, s) := runItems v f.stack
    (r, { word_map := wm, stack := s })

/-- Rust `str::trim` on a character list. -/
def trimChars (cs : List Char) : List Char :=
  ((cs.dropWhile Char.isWhitespace).reverse.dropWhile Char.isWhitespace).reverse

/-- The loop of `Forth::format_stack`: `v.to_string()` plus a trailing
space for each value, bottom to top. -/
def stackChars (st : List Value) : List Char :=
  (st.map (fun v => (toString v).data ++ [' '])).flatten

/-- `Forth::format_stack`: append `v.to_string()` and a space per value,
then trim. -/
def Forth.format_stack (f : Forth) : String :=
  String.mk (trimChars (stackChars f.stack))

/-- The stack rendering as the spec describes it: values bottom to top,
separated by a single space, empty string for the empty stack (used to
compare `Forth.format_stack` against the spec's words). -/
def formatSpec : List Value → String
  | [] => ""
  | [v] => toString v
  | v :: w :: rest => toString v ++ " " ++ formatSpec (w :: rest)

/-- Claim C1, counterexample: "4 0 /" on a fresh interpreter does fail with
`DivisionByZero`, but the stack is left empty — `format_stack` renders `""`,
not `"4"` as the claim states (both operands were popped off the
2-element stack). -/
theorem C1_counterexample :
    (Forth.new.eval "4 0 /").1 = Except.error Error.divisionByZero ∧
    (Forth.new.eval "4 0 /").2.format_stack = "" ∧ ("" : String) ≠ "4" :=
  ⟨rfl, rfl, by decide⟩

/-- Claim C1, amended: evaluating "4 0 /" on a freshly constructed
interpreter fails with `DivisionByZero`, with both operands already popped
and nothing pushed, leaving the stack empty (`format_stack` renders `""`). -/
theorem C1_div_by_zero_empties_stack :
    (Forth.new.eval "4 0 /").1 = Except.error Error.divisionByZero ∧
    (Forth.new.eval "4 0 /").2.stack = [] ∧
    (Forth.new.eval "4 0 /").2.format_stack = "" :=
  ⟨rfl, rfl, rfl⟩

/-- Claim C2, counterexample: the line `: bar : 1 ; bar` is accepted by the
parser, yet the emitted item sequence contains the `DefinitionStart`
marker — a `:` token inside a definition body is stored verbatim (its
resolution ends in `Colon`, not `SemiColon`) and is later copied into the
output when `bar` is expanded. -/
theorem C2_counterexample :
    (input_parse Forth.new.word_map ": bar : 1 ; bar").1
      = Except.ok [Item.symbol Symbol.colon, Item.exec (Exec.value 1)] ∧
    Item.symbol Symbol.colon
      ∈ [Item.symbol Symbol.colon, Item.exec (Exec.value 1)] :=
  ⟨rfl, by decide⟩

/-- Claim C2, amended: marker items can reach the executable sequence (a
`DefinitionStart` stored inside a custom word's body is copied into the
output on expansion), but the Evaluator's catch-all arm skips every marker
item, so markers never have any effect on evaluation. -/
theorem C2_markers_skipped (sym : Symbol) (rest : List Item) (s : List Value) :
    runItems (Item.symbol sym :: rest) s = runItems rest s := rfl

/-- Claim C3, counterexample: `: foo 1 ; foo : foo 2 ; foo` does not leave
the stack as `1 2`; it fails with `InvalidWord` (stack left empty), because
at the second `: foo` the name check resolves `foo` to its current body
`[1]`, whose last item is a literal, and rejects the redefinition. -/
theorem C3_counterexample :
    (Forth.new.eval ": foo 1 ; foo : foo 2 ; foo").1
      = Except.error Error.invalidWord ∧
    (Forth.new.eval ": foo 1 ; foo : foo 2 ; foo").2.stack = [] :=
  ⟨rfl, rfl⟩

/-- Claim C3, amended: redefining a word whose current body ends in a
numeric literal is rejected with `InvalidWord`, so the claimed line fails;
for bodies not ending in a literal, redefinition is accepted and each use
of a word copies a snapshot of its current body at the point of reference:
`: foo 1 0 + ; foo : foo 2 0 + ; foo` succeeds and leaves the stack as
`1 2` (the first expansion is unaffected by the later redefinition). -/
theorem C3_snapshot_on_expansion :
    (Forth.new.eval ": foo 1 0 + ; foo : foo 2 0 + ; foo").1 = Except.ok () ∧
    (Forth.new.eval ": foo 1 0 + ; foo : foo 2 0 + ; foo").2.stack = [1, 2] ∧
    (Forth.new.eval ": foo 1 0 + ; foo : foo 2 0 + ; foo").2.format_stack
      = "1 2" :=
  ⟨rfl, rfl, rfl⟩

/-- Claim C6: a resolution failure inside a definition body, or a
definition left unterminated at end of input, aborts with `UnknownWord`
resp. `InvalidWord`, but the partially built definition persists in the
vocabulary: `: foo 1 2` leaves `FOO ↦ [1, 2]` behind its `InvalidWord`, and
`: foo 1 qq` leaves `FOO ↦ [1]` behind its `UnknownWord`; in general the
body-state step returns the vocabulary exactly as already mutated, with no
rollback. -/
theorem C6_partial_defs_persist :
    ((Forth.new.eval ": foo 1 2").1 = Except.error Error.invalidWord ∧
     (Forth.new.eval ": foo 1 2").2.word_map.lookup "FOO"
       = some [Item.exec (Exec.value 1), Item.exec (Exec.value 2)]) ∧
    ((Forth.new.eval ": foo 1 qq").1 = Except.error Error.unknownWord ∧
     (Forth.new.eval ": foo 1 qq").2.word_map.lookup "FOO"
       = some [Item.exec (Exec.value 1)]) ∧
    (∀ (tok : String) (rest : List String) (ccw : String) (items : List Item)
       (wm : WordMap) (e : Error), str_to_item wm tok = Except.error e →
       parseTokens (tok :: rest) ParseState.custom ccw items wm
         = (Except.error e, wm)) ∧
    (∀ (ccw : String) (items : List Item) (wm : WordMap),
       parseTokens [] ParseState.custom ccw items wm
         = (Except.error Error.invalidWord, wm)) := by
  refine ⟨⟨rfl, rfl⟩, ⟨rfl, rfl⟩, ?_, fun ccw items wm => rfl⟩
  intro tok rest ccw items wm e h
  simp only [parseTokens, h]

/-- Claim C6, witness: the body-state failure case of the theorem applied
at the concrete token "QQ" (unknown in the seeded vocabulary). -/
theorem C6_witness :
    parseTokens ["QQ"] ParseState.custom "" [] initialWordMap
      = (Except.error Error.unknownWord, initialWordMap) :=
  C6_partial_defs_persist.2.2.1 "QQ" [] "" [] initialWordMap
    Error.unknownWord rfl

/-- Wrapping is the identity on the `i32` range. -/
theorem wrap32_eq_of_mem (x : Int) (h1 : i32Min ≤ x) (h2 : x ≤ i32Max) :
    wrap32 x = x := by
  unfold wrap32
  unfold i32Min at h1
  unfold i32Max at h2
  omega

/-- Claim C7, counterexample: the arithmetic words do not push the exact
mathematical `b op a` on every 2-element stack. On the reachable line
"2147483647 1 +" the exact sum `2 ^ 31` leaves the `i32` range: the
release build wraps it to `-2147483648` (as this model computes) and a
debug build panics — in neither build is `b + a` pushed. -/
theorem C7_counterexample :
    (Forth.new.eval "2147483647 1 +").1 = Except.ok () ∧
    (Forth.new.eval "2147483647 1 +").2.stack = [-2147483648] ∧
    (-2147483648 : Int) ≠ 2147483647 + 1 :=
  ⟨rfl, rfl, by decide⟩

/-- Claim C7, amended: arithmetic pops the top value `a` and the value `b`
below it and pushes the `i32` result of `b op a`, which equals the exact
`b op a` whenever that result lies within the `i32` range (outside it the
release build wraps and a debug build panics, so only the agreeing
in-range case is asserted): "9 2 -" leaves the stack as `7` and "9 2 /"
as `4` (truncating division); any arithmetic word executed on a stack
with fewer than 2 elements fails with `StackUnderflow`. -/
theorem C7_arith_pops_two_pushes_result :
    ((Forth.new.eval "9 2 -").1 = Except.ok () ∧
     (Forth.new.eval "9 2 -").2.format_stack = "7") ∧
    ((Forth.new.eval "9 2 /").1 = Except.ok () ∧
     (Forth.new.eval "9 2 /").2.format_stack = "4") ∧
    (∀ (o : ArithWord) (init : List Value) (a b : Value),
       (o = ArithWord.div → a ≠ 0) →
       i32Min ≤ arithExact a b o → arithExact a b o ≤ i32Max →
       runItems [Item.exec (Exec.arith o)] (init ++ [b, a])
         = (Except.ok (), init ++ [arithExact a b o])) ∧
    (∀ (o : ArithWord) (s : List Value), s.length < 2 →
       (runItems [Item.exec (Exec.arith o)] s).1
         = Except.error Error.stackUnderflow) := by
  refine ⟨⟨rfl, rfl⟩, ⟨rfl, rfl⟩, ?_, ?_⟩
  · intro o init a b hdiv h1 h2
    have hop : eval_oper a b o = Except.ok (arithExact a b o) := by
      cases o with
      | add =>
        show Except.ok (wrap32 (b + a)) = _
        rw [wrap32_eq_of_mem (b + a) h1 h2]
        rfl
      | sub =>
        show Except.ok (wrap32 (b - a)) = _
        rw [wrap32_eq_of_mem (b - a) h1 h2]
        rfl
      | mul =>
        show Except.ok (wrap32 (b * a)) = _
        rw [wrap32_eq_of_mem (b * a) h1 h2]
        rfl
      | div =>
        show (if a = 0 then _ else Except.ok (wrap32 (Int.tdiv b a))) = _
        rw [if_neg (hdiv rfl), wrap32_eq_of_mem (Int.tdiv b a) h1 h2]
        rfl
    have hsplit : init ++ [b, a] = (init ++ [b]) ++ [a] := by simp
    rw [runItems, hsplit]
    simp only [List.getLast?_concat, List.dropLast_concat, hop, runItems]
  · intro o s hs
    match s with
    | [] => rfl
    | [x] => rfl
    | x :: y :: t => simp at hs; omega

/-- Claim C7, witness: the general parts of the theorem applied at `Sub`
on the stack `9 2` (top is `2`, exact result `7` is in range) and at
`Add` on the 1-element stack `5`. -/
theorem C7_witness :
    runItems [Item.exec (Exec.arith ArithWord.sub)] ([] ++ [9, 2])
      = (Except.ok (), [] ++ [arithExact 2 9 ArithWord.sub]) ∧
    (runItems [Item.exec (Exec.arith ArithWord.add)] [5]).1
      = Except.error Error.stackUnderflow :=
  ⟨C7_arith_pops_two_pushes_result.2.2.1 ArithWord.sub [] 2 9
      (fun h => ArithWord.noConfusion h) (by decide) (by decide),
   C7_arith_pops_two_pushes_result.2.2.2 ArithWord.add [5] (by decide)⟩

/-- Claim C10: stack-underflow is not uniformly atomic. An arithmetic item
or `Swap` executed with exactly one element fails with `StackUnderflow`
and that element is already popped (the stack is left empty), whereas
`Dup` and `Over`, whenever they fail with `StackUnderflow`, leave the
stack unchanged (they only peek before pushing). -/
theorem C10_underflow_not_atomic :
    (∀ (o : ArithWord) (x : Value),
       runItems [Item.exec (Exec.arith o)] [x]
         = (Except.error Error.stackUnderflow, [])) ∧
    (∀ x : Value, eval_command [x] StackWord.swap
       = (Except.error Error.stackUnderflow, [])) ∧
    (∀ s : List Value,
       (eval_command s StackWord.dup).1 = Except.error Error.stackUnderflow →
       (eval_command s StackWord.dup).2 = s) ∧
    (∀ s : List Value,
       (eval_command s StackWord.over).1 = Except.error Error.stackUnderflow →
       (eval_command s StackWord.over).2 = s) := by
  refine ⟨fun o x => rfl, fun x => rfl, ?_, ?_⟩
  · intro s h
    match s with
    | [] => rfl
    | x :: t =>
      exfalso
      rcases hL : (x :: t).getLast? with _ | a
      · exact (List.cons_ne_nil x t) (List.getLast?_eq_none_iff.mp hL)
      · rw [eval_command, hL] at h
        exact Except.noConfusion h
  · intro s h
    by_cases hlen : s.length < 2
    · simp only [eval_command, if_pos hlen]
    · exfalso
      have hlt : s.length - 2 < s.length := by omega
      rw [eval_command, if_neg hlen, List.get?_eq_get hlt] at h
      exact Except.noConfusion h

/-- Claim C10, witness: the conditional `Dup`/`Over` parts of the theorem
applied on the concrete stacks `[]` and `[5]`, where they underflow. -/
theorem C10_witness :
    (eval_command [] StackWord.dup).2 = [] ∧
    (eval_command [5] StackWord.over).2 = [5] :=
  ⟨C10_underflow_not_atomic.2.2.1 [] rfl,
   C10_underflow_not_atomic.2.2.2 [5] rfl⟩

/-- Claim C4, counterexample: after `: w dup 1 ;` the name `w` resolves to
the two-item body `DUP 1` — not to a numeric literal (`parseI32 "W"` fails,
and the resolution has two items) — yet the redefinition `: w 2 ;` is
rejected with `InvalidWord`, because the name check in fact rejects any
name whose successful resolution ends in a literal item. -/
theorem C4_counterexample :
    (Forth.new.eval ": w dup 1 ; : w 2 ;").1 = Except.error Error.invalidWord ∧
    parseI32 "W" = none ∧
    (Forth.new.eval ": w dup 1 ;").2.word_map.lookup "W"
      = some [Item.exec (Exec.stackw StackWord.dup), Item.exec (Exec.value 1)] :=
  ⟨rfl, rfl, rfl⟩

/-- Claim C4, amended: in the `DefinitionNameExpected` state a name token
is rejected with `InvalidWord` exactly when its resolution succeeds and
ends in a numeric-literal item (this covers literal-shaped tokens and any
word whose current body ends in a literal) or succeeds with an empty
sequence; every other name token — in particular one whose resolution
fails — is accepted, registering a new empty vocabulary entry under the
token (which the tokenizer has already case-folded), overwriting any
existing entry of that name. -/
theorem C4_name_token_rejection (wm : WordMap) (tok : String)
    (rest : List String) (ccw : String) (items : List Item) :
    (∀ e : Error, str_to_item wm tok = Except.error e →
       parseTokens (tok :: rest) ParseState.customInit ccw items wm
         = parseTokens rest ParseState.custom tok items (mapInsert wm tok [])) ∧
    (∀ (v : List Item) (it : Item), str_to_item wm tok = Except.ok v →
       v.getLast? = some it → (∀ n : Value, it ≠ Item.exec (Exec.value n)) →
       parseTokens (tok :: rest) ParseState.customInit ccw items wm
         = parseTokens rest ParseState.custom tok items (mapInsert wm tok [])) ∧
    (∀ (v : List Item) (n : Value), str_to_item wm tok = Except.ok v →
       v.getLast? = some (Item.exec (Exec.value n)) →
       parseTokens (tok :: rest) ParseState.customInit ccw items wm
         = (Except.error Error.invalidWord, wm)) ∧
    (∀ v : List Item, str_to_item wm tok = Except.ok v → v.getLast? = none →
       parseTokens (tok :: rest) ParseState.customInit ccw items wm
         = (Except.error Error.invalidWord, wm)) := by
  refine ⟨?_, ?_, ?_, ?_⟩
  · intro e h
    simp only [parseTokens, h]
  · intro v it h hlast hne
    cases it with
    | exec e =>
      cases e with
      | arith o => simp only [parseTokens, h, hlast]
      | stackw c => simp only [parseTokens, h, hlast]
      | value n => exact absurd rfl (hne n)
    | symbol s => simp only [parseTokens, h, hlast]
  · intro v n h hlast
    simp only [parseTokens, h, hlast]
  · intro v h hlast
    simp only [parseTokens, h, hlast]

/-- Claim C4, witness: the theorem applied at the unknown name "FOO"
(resolution fails, name accepted and registered) and at the literal-shaped
name "7" (rejected with `InvalidWord`). -/
theorem C4_witness :
    parseTokens ["FOO"] ParseState.customInit "" [] initialWordMap
      = parseTokens [] ParseState.custom "FOO" []
          (mapInsert initialWordMap "FOO" []) ∧
    parseTokens ["7"] ParseState.customInit "" [] initialWordMap
      = (Except.error Error.invalidWord, initialWordMap) :=
  ⟨(C4_name_token_rejection initialWordMap "FOO" [] "" []).1
      Error.unknownWord rfl,
   (C4_name_token_rejection initialWordMap "7" [] "" []).2.2.1
      [Item.exec (Exec.value 7)] 7 rfl rfl⟩

/-- Claim C5, counterexample: `: foo ;` stores the empty body for `FOO`,
and then invoking `foo` in the `Normal` state does not append nothing and
continue — it fails the whole line with `InvalidWord`, because the parser
demands a last element of every successfully resolved sequence. -/
theorem C5_counterexample :
    (Forth.new.eval ": foo ; foo").1 = Except.error Error.invalidWord ∧
    (Forth.new.eval ": foo ; foo").2.word_map.lookup "FOO" = some [] :=
  ⟨rfl, rfl⟩

/-- Claim C5, amended: in the `Normal` state, a token that resolves
successfully to a non-empty sequence whose last element is not the
`DefinitionStart` marker has its whole resolved sequence appended to the
output and parsing continues without error; but a token that resolves
successfully to the empty sequence (a word defined with an empty body,
e.g. `foo` after `: foo ;`) fails with `InvalidWord`. -/
theorem C5_normal_append (wm : WordMap) (tok : String) (rest : List String)
    (ccw : String) (items : List Item) :
    (∀ (v : List Item) (it : Item), str_to_item wm tok = Except.ok v →
       v.getLast? = some it → it ≠ Item.symbol Symbol.colon →
       parseTokens (tok :: rest) ParseState.normal ccw items wm
         = parseTokens rest ParseState.normal ccw (items ++ v) wm) ∧
    (str_to_item wm tok = Except.ok [] →
       parseTokens (tok :: rest) ParseState.normal ccw items wm
         = (Except.error Error.invalidWord, wm)) := by
  constructor
  · intro v it h hlast hne
    simp only [parseTokens, h, hlast, if_neg hne]
  · intro h
    simp only [parseTokens, h, List.getLast?_nil]

/-- Claim C5, witness: the theorem applied at the literal token "1"
(appended, parsing continues) and, for the empty-resolution case, at the
word "FOO" bound to the empty body. -/
theorem C5_witness :
    parseTokens ["1"] ParseState.normal "" [] initialWordMap
      = parseTokens [] ParseState.normal ""
          ([] ++ [Item.exec (Exec.value 1)]) initialWordMap ∧
    parseTokens ["FOO"] ParseState.normal "" []
        (mapInsert initialWordMap "FOO" [])
      = (Except.error Error.invalidWord, mapInsert initialWordMap "FOO" []) :=
  ⟨(C5_normal_append initialWordMap "1" [] "" []).1
      [Item.exec (Exec.value 1)] (Item.exec (Exec.value 1)) rfl rfl
      (by decide),
   (C5_normal_append (mapInsert initialWordMap "FOO" []) "FOO" [] "" []).2
      rfl⟩

/-- Claim C8: evaluation is invariant under letter case — the interpreter
uppercases the raw input before tokenizing, so two input lines with the
same uppercasing (e.g. "dup", "DUP", "Dup") evaluate to the same result
and leave the interpreter in the same state; custom word names are stored
and looked up case-folded by the same mechanism. -/
theorem C8_case_insensitive (f : Forth) (s1 s2 : String)
    (h : upper s1 = upper s2) : f.eval s1 = f.eval s2 := by
  unfold Forth.eval input_parse
  rw [h]

/-- Claim C8, witness: the theorem applied to the case variants "Dup" and
"DUP" on a fresh interpreter. -/
theorem C8_witness : Forth.new.eval "Dup" = Forth.new.eval "DUP" :=
  C8_case_insensitive Forth.new "Dup" "DUP" rfl

/-- Characters that can occur in the decimal rendering of an integer. -/
def intChars : List Char := ['-', '0', '1', '2', '3', '4', '5', '6', '7', '8', '9']

theorem digitChar_mem_intChars (m : Nat) (h : m < 10) :
    Nat.digitChar m ∈ intChars := by
  interval_cases m <;> decide

theorem toDigitsCore_mem_intChars (fuel : Nat) :
    ∀ (n : Nat) (acc : List Char), (∀ c ∈ acc, c ∈ intChars) →
      ∀ c ∈ Nat.toDigitsCore 10 fuel n acc, c ∈ intChars := by
  induction fuel with
  | zero => intro n acc hacc; simpa [Nat.toDigitsCore] using hacc
  | succ f ih =>
    intro n acc hacc c hc
    simp only [Nat.toDigitsCore] at hc
    by_cases h10 : n / 10 = 0
    · rw [if_pos h10] at hc
      rcases List.mem_cons.mp hc with rfl | hmem
      · exact digitChar_mem_intChars _ (Nat.mod_lt _ (by decide))
      · exact hacc c hmem
    · rw [if_neg h10] at hc
      refine ih (n / 10) _ ?_ c hc
      intro e he
      rcases List.mem_cons.mp he with rfl | hmem
      · exact digitChar_mem_intChars _ (Nat.mod_lt _ (by decide))
      · exact hacc e hmem

theorem toDigitsCore_ne_nil (fuel : Nat) :
    ∀ (n : Nat) (acc : List Char), acc ≠ [] →
      Nat.toDigitsCore 10 fuel n acc ≠ [] := by
  induction fuel with
  | zero => intro n acc h; simpa [Nat.toDigitsCore] using h
  | succ f ih =>
    intro n acc h
    simp only [Nat.toDigitsCore]
    by_cases h10 : n / 10 = 0
    · simp [h10]
    · rw [if_neg h10]
      exact ih _ _ (by simp)

theorem toDigits_ne_nil (n : Nat) : Nat.toDigits 10 n ≠ [] := by
  rw [Nat.toDigits]
  simp only [Nat.toDigitsCore]
  by_cases h10 : n / 10 = 0
  · simp [h10]
  · rw [if_neg h10]
    exact toDigitsCore_ne_nil _ _ _ (by simp)

theorem natRepr_mem_intChars (n : Nat) :
    ∀ c ∈ (Nat.repr n).data, c ∈ intChars := by
  intro c hc
  have : c ∈ Nat.toDigits 10 n := hc
  exact toDigitsCore_mem_intChars (n + 1) n [] (by intro e he; cases he) c this

theorem intToString_mem_intChars (v : Int) :
    ∀ c ∈ (toString v).data, c ∈ intChars := by
  cases v with
  | ofNat m => exact natRepr_mem_intChars m
  | negSucc m =>
    intro c hc
    have hdata : (toString (Int.negSucc m)).data
        = '-' :: (Nat.repr (m + 1)).data := by
      show ("-" ++ Nat.repr (m + 1)).data = _
      rw [String.data_append]
      rfl
    rw [hdata] at hc
    rcases List.mem_cons.mp hc with rfl | hmem
    · exact List.mem_cons_self _ _
    · exact natRepr_mem_intChars (m + 1) c hmem

theorem intToString_ne_nil (v : Int) : (toString v).data ≠ [] := by
  cases v with
  | ofNat m => exact toDigits_ne_nil m
  | negSucc m =>
    have hdata : (toString (Int.negSucc m)).data
        = '-' :: (Nat.repr (m + 1)).data := by
      show ("-" ++ Nat.repr (m + 1)).data = _
      rw [String.data_append]
      rfl
    rw [hdata]
    simp

theorem intChars_not_ws : ∀ c ∈ intChars, c.isWhitespace = false := by decide

/-- Trimming a string made of a chunk with non-whitespace first and last
characters plus one trailing space recovers the chunk. -/
theorem trimChars_append_space (x : List Char) (c d : Char)
    (hh : x.head? = some c) (hc : c.isWhitespace = false)
    (hl : x.getLast? = some d) (hd : d.isWhitespace = false) :
    trimChars (x ++ [' ']) = x := by
  cases x with
  | nil => simp at hh
  | cons a t =>
    have hac : a = c := by simpa using hh
    subst hac
    have h1 : ((a :: t) ++ [' ']).dropWhile Char.isWhitespace
        = (a :: t) ++ [' '] := by
      rw [List.cons_append, List.dropWhile_cons]
      simp [hc]
    have hrev : ((a :: t) ++ [' ']).reverse = ' ' :: (a :: t).reverse := by
      simp
    obtain ⟨r, hr⟩ : ∃ r, (a :: t).reverse = d :: r := by
      have hh2 : (a :: t).reverse.head? = some d := by
        rw [List.head?_reverse]; exact hl
      cases hrevx : (a :: t).reverse with
      | nil => rw [hrevx] at hh2; simp at hh2
      | cons e r =>
        rw [hrevx] at hh2
        simp only [List.head?_cons, Option.some.injEq] at hh2
        exact ⟨r, by rw [hh2]⟩
    unfold trimChars
    rw [h1, hrev, List.dropWhile_cons, if_pos (by decide), hr,
      List.dropWhile_cons, if_neg (by simp [hd]), ← hr, List.reverse_reverse]

theorem stackChars_cons (v : Value) (rest : List Value) :
    stackChars (v :: rest) = (formatSpec (v :: rest)).data ++ [' '] := by
  induction rest generalizing v with
  | nil => simp [stackChars, formatSpec]
  | cons w rs ih =>
    have h1 : stackChars (v :: w :: rs)
        = ((toString v).data ++ [' ']) ++ stackChars (w :: rs) := by
      simp [stackChars]
    rw [h1, ih w]
    show _ = (toString v ++ " " ++ formatSpec (w :: rs)).data ++ [' ']
    rw [String.data_append, String.data_append]
    simp

theorem formatSpec_head_not_ws (v : Value) (rest : List Value) :
    ∃ c, (formatSpec (v :: rest)).data.head? = some c ∧
      c.isWhitespace = false := by
  obtain ⟨h0, t0, hvt⟩ : ∃ h0 t0, (toString v).data = h0 :: t0 := by
    cases hx : (toString v).data with
    | nil => exact absurd hx (intToString_ne_nil v)
    | cons h0 t0 => exact ⟨h0, t0, rfl⟩
  have hmem : h0 ∈ (toString v).data := by
    rw [hvt]; exact List.mem_cons_self _ _
  have hws : h0.isWhitespace = false :=
    intChars_not_ws h0 (intToString_mem_intChars v h0 hmem)
  cases rest with
  | nil => exact ⟨h0, by simp [formatSpec, hvt], hws⟩
  | cons w rs =>
    refine ⟨h0, ?_, hws⟩
    show (toString v ++ " " ++ formatSpec (w :: rs)).data.head? = some h0
    rw [String.data_append, String.data_append, hvt]
    rfl

theorem formatSpec_last_not_ws (v : Value) (rest : List Value) :
    ∃ d, (formatSpec (v :: rest)).data.getLast? = some d ∧
      d.isWhitespace = false := by
  induction rest generalizing v with
  | nil =>
    have hne : (toString v).data ≠ [] := intToString_ne_nil v
    refine ⟨(toString v).data.getLast hne, ?_, ?_⟩
    · show (toString v).data.getLast? = _
      exact List.getLast?_eq_getLast _ hne
    · exact intChars_not_ws _
        (intToString_mem_intChars v _ (List.getLast_mem hne))
  | cons w rs ih =>
    obtain ⟨d, hd, hdws⟩ := ih w
    refine ⟨d, ?_, hdws⟩
    show (toString v ++ " " ++ formatSpec (w :: rs)).data.getLast? = some d
    rw [String.data_append, List.getLast?_append_of_ne_nil]
    · exact hd
    · intro hnil
      rw [hnil] at hd
      simp at hd

/-- Bridge: `Forth::format_stack` computes exactly the spec's rendering of
the stack (bottom to top, single-space separated, no leading or trailing
whitespace). -/
theorem format_stack_eq_formatSpec (f : Forth) :
    f.format_stack = formatSpec f.stack := by
  unfold Forth.format_stack
  cases hst : f.stack with
  | nil => rfl
  | cons v rest =>
    obtain ⟨c, hh, hc⟩ := formatSpec_head_not_ws v rest
    obtain ⟨d, hl, hd⟩ := formatSpec_last_not_ws v rest
    rw [stackChars_cons, trimChars_append_space _ c d hh hc hl hd]

/-- Claim C9: `format_stack` renders the current stack from bottom to top,
values separated by a single space, with no leading or trailing whitespace
(formalized by agreement with the spec-side `formatSpec` rendering); on a
freshly constructed interpreter it returns the empty string, and after 1,
2, 3 have been pushed it returns "1 2 3"; it is a pure function of the
stack, so it reads the state without modifying it. -/
theorem C9_format_stack :
    Forth.new.format_stack = "" ∧
    (Forth.new.eval "1 2 3").2.stack = [1, 2, 3] ∧
    (Forth.new.eval "1 2 3").2.format_stack = "1 2 3" ∧
    (∀ f : Forth, f.format_stack = formatSpec f.stack) :=
  ⟨rfl, rfl, rfl, format_stack_eq_formatSpec⟩

end BasicForth
